import Mathlib

set_option linter.unusedSectionVars false
set_option linter.unusedVariables false

/-!
Verification of the Ecclesia-TS attribution engine
(src/election/attribution and friends), by a shallow embedding into Lean.

Modelling conventions, shared by all definitions below:
* JS `Map`s / `Counter`s are association lists `List (key × value)`;
  insertion order is the list order, new keys are appended at the tail
  (as JS Maps do).  `Counter.get` of a missing key is 0.
* JS numbers are `ℕ` where the source only ever holds non-negative
  integers (ballot counts, seat counts), and `ℚ` where the source
  divides (vote fractions, thresholds, rank-index values, medians).
* A JS function that can throw is embedded as `Except Err _`;
  `Err` distinguishes the `AttributionFailure` family (with its
  `Standoff` subclass) from ordinary programming errors
  (`TypeError` from `reduce` on an empty array, plain `Error`).
* `Array.prototype.sort` (stable) is embedded as `List.insertionSort`,
  which is also stable; `array.pop()` is `popLast`, `array.push` is an
  append, `array.splice(pn, 0, x)` is an insertion before position pn.
* The `rest`/`extras` pass-through parameter of the attribution
  contract is dropped: no claim below depends on it.
-/

namespace Ecclesia

/-- The failure channel of an attribution.
`attributionFailure` models the AttributionFailure class,
`standoff` models condorcet.Standoff (a subclass of AttributionFailure),
`genericError` models a plain Error,
`typeError` models the TypeError thrown by `[].reduce` with no initial value. -/
inductive Err where
  | attributionFailure
  | standoff
  | genericError
  | typeError
deriving DecidableEq

/-- Whether the error is an AttributionFailure (including its Standoff subclass). -/
def Err.isAttributionFailure : Err → Bool
  | .attributionFailure => true
  | .standoff => true
  | _ => false

/-- A Counter / Simple tally: association list from candidate to count. -/
abbrev Cnt (C : Type) := List (C × ℕ)

/-- An attribution over Simple tallies (`Attribution<Party, Simple<Party>>`). -/
abbrev SimpleAttribution (C : Type) := Cnt C → Except Err (Cnt C)

variable {C : Type} [DecidableEq C] {β : Type}

/-- `Map.get`: value at the first matching key, if any. -/
def alookup (l : List (C × β)) (p : C) : Option β :=
  (l.find? (fun e => e.1 = p)).map (·.2)

/-- `Map.get` with a default value. -/
def agetD (l : List (C × β)) (p : C) (d : β) : β :=
  (alookup l p).getD d

/-- `Counter.get`: 0 for missing keys (NumberCounter semantics). -/
def cntGet (l : Cnt C) (p : C) : ℕ :=
  agetD l p 0

/-- `Counter.total`: the sum of all counts. -/
def cntTotal (l : Cnt C) : ℕ :=
  (l.map (·.2)).sum

/-- The keys of a Map / Counter, in insertion order. -/
def keysOf (l : List (C × β)) : List C :=
  l.map (·.1)

/-- `Counter.increment(p, k)`: bump the first entry for `p`, or append `(p, k)`. -/
def cntIncrementBy (l : Cnt C) (p : C) (k : ℕ) : Cnt C :=
  match l with
  | [] => [(p, k)]
  | e :: rest => if e.1 = p then (e.1, e.2 + k) :: rest else e :: cntIncrementBy rest p k

/-- `Counter.increment(p)`: bump by one. -/
def cntIncrement (l : Cnt C) (p : C) : Cnt C :=
  cntIncrementBy l p 1

/-- `Map.set(p, v)`: overwrite the first entry for `p`, or append `(p, v)`. -/
def aset (l : List (C × β)) (p : C) (v : β) : List (C × β) :=
  match l with
  | [] => [(p, v)]
  | e :: rest => if e.1 = p then (p, v) :: rest else e :: aset rest p v

/-- `Counter.update(keys)`: increment each listed key by one. -/
def cntUpdate (l : Cnt C) (ks : List C) : Cnt C :=
  ks.foldl cntIncrement l

/-- `Counter.pos`: the sub-counter of strictly positive entries. -/
def cntPos (l : Cnt C) : Cnt C :=
  l.filter (fun e => 0 < e.2)

/-- `max(iterable, key)` from the python utils (`part_017`):
`reduce((a, b) => key(a) > key(b) ? a : b)`, so the *last* maximal element
wins ties; `none` models the TypeError of reducing an empty array. -/
def listMax? [LinearOrder β] (key : C → β) : List C → Option C
  | [] => none
  | a :: rest => some (rest.foldl (fun x y => if key x > key y then x else y) a)

/-- `min(iterable, key)` from the python utils (`part_017`):
`reduce((a, b) => key(a) < key(b) ? a : b)`, so the *last* minimal element
wins ties; `none` models the TypeError of reducing an empty array. -/
def listMin? [LinearOrder β] (key : C → β) : List C → Option C
  | [] => none
  | a :: rest => some (rest.foldl (fun x y => if key x < key y then x else y) a)

/-- The largest ballot count appearing in a tally (0 for an empty tally);
used to state the majority-rule claims. -/
def maxVoteCount (votes : Cnt C) : ℕ :=
  ((keysOf votes).map (cntGet votes)).foldr max 0

/-- `plurality({nSeats})` from majorityFactory.ts:
the candidate with the most votes wins all the seats;
AttributionFailure if the winner has zero votes. -/
def plurality (nSeats : ℕ) (votes : Cnt C) : Except Err (Cnt C) :=
  match listMax? (fun p => cntGet votes p) (keysOf votes) with
  | none => .error .typeError
  | some win =>
    if 0 < cntGet votes win then .ok [(win, nSeats)]
    else .error .attributionFailure

/-- `superMajority({nSeats, threshold, contingency})` from majorityFactory.ts:
the candidate with the most votes wins all the seats if its vote share
strictly exceeds the threshold; otherwise the contingency is called,
or AttributionFailure is raised when the contingency is null. -/
def superMajority (nSeats : ℕ) (threshold : ℚ)
    (contingency : Option (SimpleAttribution C)) (votes : Cnt C) :
    Except Err (Cnt C) :=
  match listMax? (fun p => cntGet votes p) (keysOf votes) with
  | none => .error .typeError
  | some win =>
    if (cntGet votes win : ℚ) / (cntTotal votes : ℚ) > threshold then .ok [(win, nSeats)]
    else
      match contingency with
      | none => .error .attributionFailure
      | some c => c votes

/-- The contingency parameter of `addThresholdToSimpleAttribution`:
`dflt` models `undefined` (the combinator falls back to the base
attribution on the original tally), `fail` models the explicit `null`
sentinel (raise AttributionFailure), `given c` models a supplied
attribution. -/
inductive ThresholdContingency (C : Type) where
  | dflt
  | fail
  | given (c : SimpleAttribution C)

/-- `addThresholdToSimpleAttribution({threshold, attribution, contingency})`
from transform.ts: when the threshold is positive, keep only the candidates
whose count reaches `threshold * total`; call the base attribution on the
filtered tally if it is non-empty, otherwise fall back to the contingency
on the original tally (or fail). -/
def addThresholdToSimpleAttribution (threshold : ℚ)
    (attribution : SimpleAttribution C) (contingency : ThresholdContingency C)
    (votes : Cnt C) : Except Err (Cnt C) :=
  if threshold > 0 then
    let votes_threshold : ℚ := threshold * (cntTotal votes : ℚ)
    let filtered := votes.filter (fun e => (e.2 : ℚ) ≥ votes_threshold)
    if filtered.length = 0 then
      match contingency with
      | .fail => .error .attributionFailure
      | .dflt => attribution votes
      | .given c => c votes
    else attribution filtered
  else attribution votes

/-- `hamilton({nSeats})` from proportionalFactory.ts (largest remainders,
Hare quota).  The single loop filling the `seats` and `remainders` maps is
the paired fold; `divmod(scores * nSeats, sumVotes)` is `ℕ` division and
remainder; the stable `sort` on decreasing remainders is a stable insertion
sort; `slice(0, nSeats - seats.total)` is `take` (the argument is shown
non-negative in the theorems below). -/
def hamilton (nSeats : ℕ) (votes : Cnt C) : Cnt C :=
  let sumVotes := cntTotal votes
  let sr := votes.foldl
    (fun acc e => (aset acc.1 e.1 (e.2 * nSeats / sumVotes),
                   aset acc.2 e.1 (e.2 * nSeats % sumVotes)))
    (([], []) : Cnt C × Cnt C)
  let seats := sr.1
  let remainders := sr.2
  let sorted := List.insertionSort
    (fun a b => cntGet remainders b ≤ cntGet remainders a) (keysOf remainders)
  cntUpdate seats (sorted.take (nSeats - cntTotal seats))

/-- `array.pop()`: split off the last element (`none` for an empty array,
where the JS `pop` would return `undefined` and corrupt the counters; the
claims below only evaluate the loops where this is unreachable). -/
def popLast {α : Type} : List α → Option (List α × α)
  | [] => none
  | [a] => some ([], a)
  | a :: b :: rest =>
    match popLast (b :: rest) with
    | none => none
    | some (l, x) => some (a :: l, x)

/-- The re-insertion loop of the rank-index engine: insert `winner` before
the first party whose rank-index value is ≥ the winner's
(`parties.splice(pn, 0, winner)`), or `push` it at the end. -/
def insertParty (riv : C → ℚ) (winner : C) : List C → List C
  | [] => [winner]
  | p :: rest =>
    if riv winner ≤ riv p then winner :: p :: rest
    else p :: insertParty riv winner rest

/-- The seat-award loop of `proportionalFromRankIndexFunction`
(proportionalFactory.ts): pop the party with the highest rank-index value,
give it a seat, recompute its value, re-insert it in sorted position. -/
def rankIndexLoop (f : ℚ → ℕ → ℚ) (fractions : C → ℚ) :
    ℕ → List C → (C → ℚ) → Cnt C → Option (Cnt C)
  | 0, _, _, seats => some seats
  | sn + 1, parties, riv, seats =>
    match popLast parties with
    | none => none
    | some (rest, winner) =>
      let seats' := cntIncrement seats winner
      let newVal := f (fractions winner) (cntGet seats' winner)
      let riv' := fun q => if q = winner then newVal else riv q
      rankIndexLoop f fractions sn (insertParty riv' winner rest) riv' seats'

/-- `proportionalFromRankIndexFunction({nSeats, rankIndexFunction})` from
proportionalFactory.ts.  The `fractions` and `rankIndexValues` maps are
embedded as functions (they are only ever read at keys of the tally); the
initial stable sort by increasing rank-index value is the stable insertion
sort. -/
def proportionalFromRankIndexFunction (nSeats : ℕ) (f : ℚ → ℕ → ℚ)
    (votes : Cnt C) : Option (Cnt C) :=
  let fractions := fun p => (cntGet votes p : ℚ) / (cntTotal votes : ℚ)
  let riv0 := fun p => f (fractions p) 0
  let parties := List.insertionSort (fun a b => riv0 a ≤ riv0 b) (keysOf votes)
  rankIndexLoop f fractions nSeats parties riv0 []

/-- A disproportionality metric (`DisproportionMetric`): a pure function of
the votes and the current seat counts. -/
abbrev Metric (C : Type) := Cnt C → Cnt C → ℚ

/-- `newMetric < bestSeatsMetric`, where `none` models the initial
`Infinity` value of `bestSeatsMetric`. -/
def metricLt (m : ℚ) : Option ℚ → Bool
  | none => true
  | some b => decide (m < b)

/-- The seat-award loop of `boundedRankIndexMethod`
(proportionalFactory.ts): the same award step as `rankIndexLoop`, and once
`sn` has reached `minNSeats` it records the positive part of the current
allocation whenever the metric improves on the best recorded so far. -/
def boundedLoop (f : ℚ → ℕ → ℚ) (metric : Metric C) (votes : Cnt C)
    (fractions : C → ℚ) (minNSeats : ℕ) :
    ℕ → ℕ → List C → (C → ℚ) → Cnt C → Cnt C → Option ℚ → Option (Cnt C)
  | 0, _, _, _, _, best, _ => some best
  | r + 1, sn, parties, riv, seats, best, bestMetric =>
    match popLast parties with
    | none => none
    | some (rest, winner) =>
      let seats' := cntIncrement seats winner
      let bb :=
        if minNSeats ≤ sn then
          let m := metric votes seats'
          if metricLt m bestMetric then (cntPos seats', some m) else (best, bestMetric)
        else (best, bestMetric)
      let newVal := f (fractions winner) (cntGet seats' winner)
      let riv' := fun q => if q = winner then newVal else riv q
      boundedLoop f metric votes fractions minNSeats r (sn + 1)
        (insertParty riv' winner rest) riv' seats' bb.1 bb.2

/-- `boundedRankIndexMethod({minNSeats, maxNSeats, rankIndexFunction,
metric})` from proportionalFactory.ts: run the award loop for
`sn = 1 .. maxNSeats` and return the best allocation recorded. -/
def boundedRankIndexMethod (minNSeats maxNSeats : ℕ) (f : ℚ → ℕ → ℚ)
    (metric : Metric C) (votes : Cnt C) : Option (Cnt C) :=
  let fractions := fun p => (cntGet votes p : ℚ) / (cntTotal votes : ℚ)
  let riv0 := fun p => f (fractions p) 0
  let parties := List.insertionSort (fun a b => riv0 a ≤ riv0 b) (keysOf votes)
  boundedLoop f metric votes fractions minNSeats maxNSeats 1 parties riv0 [] (cntPos []) none

/-- An Order tally: a list of ballots, each ranking candidates from most
to least preferred. -/
abbrev OrderTally (C : Type) := List (List C)

/-- One tabulation round of `instantRunoff` (orderingFactory.ts): each
ballot contributes one first-place vote to its first non-blacklisted
candidate (the inner `break`), exhausted ballots contribute nothing. -/
def firstPlacesOf (votes : OrderTally C) (blacklisted : List C) : Cnt C :=
  votes.foldl
    (fun fp ballot =>
      match ballot.find? (fun p => ! blacklisted.contains p) with
      | some p => cntIncrement fp p
      | none => fp)
    []

/-- The elimination loop of `instantRunoff`, fuelled by the number of
distinct candidates; exhausting the fuel is the `Should not happen` plain
error.  A candidate whose first-place share strictly exceeds one half wins
all the seats, otherwise the candidate with the fewest first places
(`min`, last one on ties) is blacklisted. -/
def runoffLoop (nSeats : ℕ) (votes : OrderTally C) :
    ℕ → List C → Except Err (Cnt C)
  | 0, _ => .error .genericError
  | fuel + 1, blacklisted =>
    let firstPlaces := firstPlacesOf votes blacklisted
    let total := cntTotal firstPlaces
    match firstPlaces.find? (fun e => decide ((e.2 : ℚ) / (total : ℚ) > 1/2)) with
    | some e => .ok [(e.1, nSeats)]
    | none =>
      match listMin? (fun p => cntGet firstPlaces p) (keysOf firstPlaces) with
      | none => .error .typeError
      | some loser => runoffLoop nSeats votes fuel (blacklisted ++ [loser])

/-- `instantRunoff({nSeats})` from orderingFactory.ts. -/
def instantRunoff (nSeats : ℕ) (votes : OrderTally C) : Except Err (Cnt C) :=
  runoffLoop nSeats votes votes.flatten.dedup.length []

/-- `bordaCount({nSeats})` from orderingFactory.ts (modified Borda count):
on each ballot the least preferred listed candidate gets 1 point and each
position above one more (`enumerate(ballot.slice().reverse(), 1)`);
the candidate with the most points wins all the seats. -/
def bordaCount (nSeats : ℕ) (votes : OrderTally C) : Except Err (Cnt C) :=
  let scores := votes.foldl
    (fun sc ballot =>
      (List.enumFrom 1 ballot.reverse).foldl
        (fun sc2 ip => cntIncrementBy sc2 ip.2 ip.1) sc)
    []
  match listMax? (fun p => cntGet scores p) (keysOf scores) with
  | none => .error .typeError
  | some w => .ok [(w, nSeats)]

/-- One `counts.get(party1)!.increment(party2)` step of condorcet's
pairwise-count phase (`DefaultMap` of `NumberCounter`s as a nested
association list; a missing outer key is created at the tail). -/
def bump2 (counts : List (C × Cnt C)) (p1 p2 : C) : List (C × Cnt C) :=
  match counts with
  | [] => [(p1, cntIncrement [] p2)]
  | e :: rest =>
    if e.1 = p1 then (e.1, cntIncrement e.2 p2) :: rest
    else e :: bump2 rest p1 p2

/-- The two inner loops of condorcet's count phase over one ballot: bump
`(party1, party2)` for every pair with party1 ranked above party2. -/
def processBallot : List (C × Cnt C) → List C → List (C × Cnt C)
  | counts, [] => counts
  | counts, p :: rest => processBallot (rest.foldl (fun cs q => bump2 cs p q) counts) rest

/-- The pairwise count table of `condorcet` over all ballots. -/
def condorcetCounts (votes : OrderTally C) : List (C × Cnt C) :=
  votes.foldl processBallot []

/-- `condorcet({nSeats, contingency})` from orderingFactory.ts.  `win`
starts as the key set of `counts` and every party having some positive
pairwise count strictly above `votes.length / 2` is deleted from it; a
unique survivor wins all the seats, no survivor is a standoff (contingency,
or the Standoff subclass of AttributionFailure), several survivors are the
`Bad attribution` plain error.  The filter renders the deletion loop; the
keys are pairwise distinct by construction, so the match on `win` renders
the `win.size` checks. -/
def condorcet (nSeats : ℕ)
    (contingency : Option (OrderTally C → Except Err (Cnt C)))
    (votes : OrderTally C) : Except Err (Cnt C) :=
  let counts := condorcetCounts votes
  let majority : ℚ := (votes.length : ℚ) / 2
  let win := (keysOf counts).filter
    (fun p => ! ((cntPos (agetD counts p [])).any (fun e => decide ((e.2 : ℚ) > majority))))
  match win with
  | [w] => .ok [(w, nSeats)]
  | [] =>
    match contingency with
    | none => .error .standoff
    | some c => c votes
  | _ => .error .genericError

/-- The number of index pairs i < j with b[i] = x and b[j] = y: the
contribution of one ballot to condorcet's pairwise count for (x, y); on a
duplicate-free ballot it is 1 when x is ranked above y and 0 otherwise. -/
def ballotPairCount (x y : C) : List C → ℕ
  | [] => 0
  | p :: rest => (if p = x then rest.count y else 0) + ballotPairCount x y rest

/-- The number of ballots preferring x over y: the value of condorcet's
pairwise count table at (x, y), as proved by `condorcetCounts_get`. -/
def prefCount (votes : OrderTally C) (x y : C) : ℕ :=
  (votes.map (ballotPairCount x y)).sum

/-- A Scores tally: candidate to histogram of grade counts. -/
abbrev ScoresTally (C : Type) := List (C × List ℕ)

/-- Expansion of a grade histogram back into the multiset of cast grades:
`for ([grade, qty] of enumerate(grades)) push(...Array(qty).fill(grade))`. -/
def expandGrades (grades : List ℕ) : List ℕ :=
  (grades.enum.map (fun gq => List.replicate gq.2 gq.1)).flatten

/-- `DefaultMap(() => []).get(party).push(...)`: append grades to the
party's list, creating the entry at the tail if needed. -/
def appendAt (l : List (C × List ℕ)) (p : C) (xs : List ℕ) : List (C × List ℕ) :=
  match l with
  | [] => [(p, xs)]
  | e :: rest => if e.1 = p then (e.1, e.2 ++ xs) :: rest else e :: appendAt rest p xs

/-- The per-candidate expanded grade lists (`counts`) of averageScore and
medianScore (`part_006`). -/
def scoresCounts (votes : ScoresTally C) : List (C × List ℕ) :=
  votes.foldl (fun acc e => appendAt acc e.1 (expandGrades e.2)) []

/-- Modelled from the spec: `fmean` of `@gouvernathor/python/statistics`
(the arithmetic mean), a dependency that is not part of this repository. -/
def fmean (l : List ℕ) : ℚ :=
  ((l.map (fun g => (g : ℚ))).sum) / (l.length : ℚ)

/-- Modelled from the spec: `median` of `@gouvernathor/python/statistics`
(the statistical median: middle element of the sorted list, mean of the
two middle elements on an even length), a dependency that is not part of
this repository. -/
def median (l : List ℕ) : ℚ :=
  let s := List.insertionSort (fun a b => a ≤ b) l
  if l.length % 2 = 1 then ((s.getD (l.length / 2) 0 : ℕ) : ℚ)
  else (((s.getD (l.length / 2 - 1) 0 : ℕ) : ℚ) + ((s.getD (l.length / 2) 0 : ℕ) : ℚ)) / 2

/-- `averageScore({nSeats})` from `part_006`: all seats go to the candidate
with the highest mean grade. -/
def averageScore (nSeats : ℕ) (votes : ScoresTally C) : Except Err (Cnt C) :=
  let counts := scoresCounts votes
  match listMax? (fun p => fmean (agetD counts p [])) (keysOf counts) with
  | none => .error .typeError
  | some w => .ok [(w, nSeats)]

/-- `Math.max(...values)`; the `[]` case models `-Infinity` as junk 0
(unreachable in the claims below, which only use non-empty tallies). -/
def maxQ : List ℚ → ℚ
  | [] => 0
  | a :: rest => rest.foldl max a

/-- `medianScore({nSeats, contingency})` from `part_006`: all seats go to
the candidate with the highest median grade; on a tie the contingency
(default: `averageScore` with the same nSeats) is called on a Scores tally
built with `Scores.fromEntries` from the tied candidates' *expanded grade
lists* (`counts.get(party)`).  The `[]` winners case models the
destructuring of an empty list (unreachable for a non-empty tally). -/
def medianScore (nSeats : ℕ)
    (contingency : Option (ScoresTally C → Except Err (Cnt C)))
    (votes : ScoresTally C) : Except Err (Cnt C) :=
  let cont := contingency.getD (averageScore nSeats)
  let counts := scoresCounts votes
  let medians := counts.map (fun e => (e.1, median e.2))
  let winScore := maxQ (medians.map (·.2))
  let winners := (keysOf medians).filter (fun p => decide (agetD medians p 0 = winScore))
  match winners with
  | [] => .error .genericError
  | [w] => .ok [(w, nSeats)]
  | _ => cont (winners.map (fun p => (p, agetD counts p [])))

/-- `new Counter(items)`: count a list of drawn items. -/
def cntFromList (draws : List C) : Cnt C :=
  draws.foldl (fun acc p => cntIncrement acc p) []

/-- `randomize({nSeats, ...})` from randomFactory.ts.  Modelled from the
spec: the injected generator's `choices(keys, {weights, k})` weighted draw
with replacement is an external capability (package `@gouvernathor/rng`,
not part of this repository); it enters the embedding as the `choices`
parameter (the theorems only assume it returns `k` items), and the
attribution wraps its result in a Counter. -/
def randomize (nSeats : ℕ)
    (choices : List C → List ℕ → ℕ → List C) (votes : Cnt C) : Cnt C :=
  cntFromList (choices (keysOf votes) (votes.map (·.2)) nSeats)

end Ecclesia

namespace Ecclesia

variable {C : Type} [DecidableEq C] {β : Type}

theorem foldl_maxBy_spec [LinearOrder β] (key : C → β) :
    ∀ (rest : List C) (a : C),
      (rest.foldl (fun x y => if key x > key y then x else y) a) ∈ a :: rest ∧
      key a ≤ key (rest.foldl (fun x y => if key x > key y then x else y) a) ∧
      ∀ x ∈ rest, key x ≤ key (rest.foldl (fun x y => if key x > key y then x else y) a) := by
  intro rest
  induction rest with
  | nil => intro a; simp
  | cons b rest ih =>
    intro a
    simp only [List.foldl_cons]
    by_cases h : key a > key b
    · simp only [if_pos h]
      rcases ih a with ⟨hmem, hge, hall⟩
      refine ⟨?_, hge, ?_⟩
      · rcases List.mem_cons.mp hmem with h1 | h1
        · simp [h1]
        · simp [List.mem_cons, h1]
      · intro x hx
        rcases List.mem_cons.mp hx with rfl | hx
        · exact le_trans (le_of_lt h) hge
        · exact hall x hx
    · simp only [if_neg h]
      rcases ih b with ⟨hmem, hge, hall⟩
      refine ⟨?_, le_trans (le_of_not_lt h) hge, ?_⟩
      · rcases List.mem_cons.mp hmem with h1 | h1
        · simp [h1]
        · simp [List.mem_cons, h1]
      · intro x hx
        rcases List.mem_cons.mp hx with rfl | hx
        · exact hge
        · exact hall x hx

theorem listMax?_spec [LinearOrder β] (key : C → β) (l : List C) (hne : l ≠ []) :
    ∃ w, listMax? key l = some w ∧ w ∈ l ∧ ∀ x ∈ l, key x ≤ key w := by
  cases l with
  | nil => exact absurd rfl hne
  | cons a rest =>
    refine ⟨_, rfl, ?_, ?_⟩
    · exact (foldl_maxBy_spec key rest a).1
    · intro x hx
      rcases List.mem_cons.mp hx with h1 | hx
      · rw [h1]; exact (foldl_maxBy_spec key rest a).2.1
      · exact (foldl_maxBy_spec key rest a).2.2 x hx

theorem foldl_minBy_spec [LinearOrder β] (key : C → β) :
    ∀ (rest : List C) (a : C),
      (rest.foldl (fun x y => if key x < key y then x else y) a) ∈ a :: rest ∧
      key (rest.foldl (fun x y => if key x < key y then x else y) a) ≤ key a ∧
      ∀ x ∈ rest, key (rest.foldl (fun x y => if key x < key y then x else y) a) ≤ key x := by
  intro rest
  induction rest with
  | nil => intro a; simp
  | cons b rest ih =>
    intro a
    simp only [List.foldl_cons]
    by_cases h : key a < key b
    · simp only [if_pos h]
      rcases ih a with ⟨hmem, hge, hall⟩
      refine ⟨?_, hge, ?_⟩
      · rcases List.mem_cons.mp hmem with h1 | h1
        · simp [h1]
        · simp [List.mem_cons, h1]
      · intro x hx
        rcases List.mem_cons.mp hx with h1 | hx
        · rw [h1]; exact le_trans hge (le_of_lt h)
        · exact hall x hx
    · simp only [if_neg h]
      rcases ih b with ⟨hmem, hge, hall⟩
      refine ⟨?_, le_trans hge (le_of_not_lt h), ?_⟩
      · rcases List.mem_cons.mp hmem with h1 | h1
        · simp [h1]
        · simp [List.mem_cons, h1]
      · intro x hx
        rcases List.mem_cons.mp hx with h1 | hx
        · rw [h1]; exact hge
        · exact hall x hx

theorem listMin?_spec [LinearOrder β] (key : C → β) (l : List C) (hne : l ≠ []) :
    ∃ w, listMin? key l = some w ∧ w ∈ l ∧ ∀ x ∈ l, key w ≤ key x := by
  cases l with
  | nil => exact absurd rfl hne
  | cons a rest =>
    refine ⟨_, rfl, ?_, ?_⟩
    · exact (foldl_minBy_spec key rest a).1
    · intro x hx
      rcases List.mem_cons.mp hx with h1 | hx
      · rw [h1]; exact (foldl_minBy_spec key rest a).2.1
      · exact (foldl_minBy_spec key rest a).2.2 x hx

theorem foldr_max_eq_of_bound (l : List ℕ) (m : ℕ) (hmem : m ∈ l) (hall : ∀ x ∈ l, x ≤ m) :
    l.foldr max 0 = m := by
  induction l with
  | nil => simp at hmem
  | cons a rest ih =>
    simp only [List.foldr_cons]
    rcases List.mem_cons.mp hmem with rfl | hm
    · have : rest.foldr max 0 ≤ m := by
        have : ∀ x ∈ rest, x ≤ m := fun x hx => hall x (List.mem_cons_of_mem _ hx)
        clear ih hmem hall
        induction rest with
        | nil => simp
        | cons b r ihr =>
          simp only [List.foldr_cons, max_le_iff]
          exact ⟨this b (List.mem_cons_self _ _), ihr (fun x hx => this x (List.mem_cons_of_mem _ hx))⟩
      omega
    · have h1 := ih hm (fun x hx => hall x (List.mem_cons_of_mem _ hx))
      have h2 := hall a (List.mem_cons_self _ _)
      omega

theorem keysOf_ne_nil (votes : List (C × β)) (hne : votes ≠ []) : keysOf votes ≠ [] := by
  cases votes with
  | nil => exact absurd rfl hne
  | cons e rest => simp [keysOf]

theorem maxVoteCount_eq_of_listMax? (votes : Cnt C) (w : C)
    (hw : listMax? (fun p => cntGet votes p) (keysOf votes) = some w) :
    maxVoteCount votes = cntGet votes w := by
  have hne : keysOf votes ≠ [] := by
    intro h; rw [h] at hw; simp [listMax?] at hw
  rcases listMax?_spec (fun p => cntGet votes p) (keysOf votes) hne with ⟨w', hw', hmem, hall⟩
  rw [hw] at hw'
  cases hw'
  exact foldr_max_eq_of_bound _ _ (List.mem_map_of_mem _ hmem)
    (by rintro x hx; rcases List.mem_map.mp hx with ⟨p, hp, rfl⟩; exact hall p hp)

theorem cntGet_nil (p : C) : cntGet ([] : Cnt C) p = 0 := rfl

theorem cntGet_cons (e : C × ℕ) (l : Cnt C) (p : C) :
    cntGet (e :: l) p = if e.1 = p then e.2 else cntGet l p := by
  by_cases h : e.1 = p <;> simp [cntGet, agetD, alookup, List.find?_cons, h]

theorem cntGet_incrementBy (l : Cnt C) (q : C) (k : ℕ) (p : C) :
    cntGet (cntIncrementBy l q k) p = cntGet l p + if p = q then k else 0 := by
  induction l with
  | nil =>
    rw [show cntIncrementBy ([] : Cnt C) q k = [(q, k)] from rfl, cntGet_cons]
    by_cases h : p = q
    · subst h
      simp [cntGet_nil]
    · simp [cntGet_nil, h, Ne.symm h]
  | cons e rest ih =>
    by_cases hq : e.1 = q
    · rw [show cntIncrementBy (e :: rest) q k = (e.1, e.2 + k) :: rest by
        simp [cntIncrementBy, hq]]
      by_cases hp : e.1 = p
      · rw [cntGet_cons, if_pos hp, cntGet_cons, if_pos hp, if_pos (by rw [← hp, hq])]
      · rw [cntGet_cons, if_neg hp, cntGet_cons, if_neg hp,
          if_neg (by intro h1; exact hp (by rw [hq, h1]))]
        omega
    · rw [show cntIncrementBy (e :: rest) q k = e :: cntIncrementBy rest q k by
        simp [cntIncrementBy, hq]]
      by_cases hp : e.1 = p
      · rw [cntGet_cons, if_pos hp, cntGet_cons, if_pos hp,
          if_neg (by intro h1; exact hq (by rw [hp, h1]))]
        omega
      · rw [cntGet_cons, if_neg hp, cntGet_cons, if_neg hp, ih]

theorem cntTotal_nil : cntTotal ([] : Cnt C) = 0 := rfl

theorem cntTotal_cons (e : C × ℕ) (l : Cnt C) :
    cntTotal (e :: l) = e.2 + cntTotal l := by
  simp [cntTotal]

theorem cntTotal_incrementBy (l : Cnt C) (q : C) (k : ℕ) :
    cntTotal (cntIncrementBy l q k) = cntTotal l + k := by
  induction l with
  | nil => simp [cntIncrementBy, cntTotal]
  | cons e rest ih =>
    by_cases hq : e.1 = q
    · rw [show cntIncrementBy (e :: rest) q k = (e.1, e.2 + k) :: rest by
        simp [cntIncrementBy, hq]]
      rw [cntTotal_cons, cntTotal_cons]
      omega
    · rw [show cntIncrementBy (e :: rest) q k = e :: cntIncrementBy rest q k by
        simp [cntIncrementBy, hq]]
      rw [cntTotal_cons, cntTotal_cons, ih]
      omega

theorem cntGet_cntUpdate (l : Cnt C) (ks : List C) (p : C) :
    cntGet (cntUpdate l ks) p = cntGet l p + ks.count p := by
  induction ks generalizing l with
  | nil => simp [cntUpdate]
  | cons k ks ih =>
    rw [show cntUpdate l (k :: ks) = cntUpdate (cntIncrement l k) ks from rfl, ih,
      cntIncrement, cntGet_incrementBy]
    rw [List.count_cons]
    simp only [beq_iff_eq]
    by_cases h : p = k
    · subst h
      simp only [if_pos rfl]
      omega
    · simp only [if_neg h, if_neg (Ne.symm h)]
      omega

theorem cntTotal_cntUpdate (l : Cnt C) (ks : List C) :
    cntTotal (cntUpdate l ks) = cntTotal l + ks.length := by
  induction ks generalizing l with
  | nil => simp [cntUpdate]
  | cons k ks ih =>
    rw [show cntUpdate l (k :: ks) = cntUpdate (cntIncrement l k) ks from rfl, ih,
      cntIncrement, cntTotal_incrementBy, List.length_cons]
    omega

theorem foldl_prod {α σ τ : Type} (l : List α) (f : σ → α → σ) (g : τ → α → τ)
    (s : σ) (t : τ) :
    l.foldl (fun acc e => (f acc.1 e, g acc.2 e)) (s, t) = (l.foldl f s, l.foldl g t) := by
  induction l generalizing s t with
  | nil => rfl
  | cons a rest ih => simp [List.foldl_cons, ih]

theorem aset_of_not_mem (l : List (C × β)) (p : C) (v : β) (h : p ∉ keysOf l) :
    aset l p v = l ++ [(p, v)] := by
  induction l with
  | nil => rfl
  | cons e rest ih =>
    have h1 : e.1 ≠ p := by
      intro h1; exact h (by simp [keysOf, h1])
    rw [show aset (e :: rest) p v = e :: aset rest p v by simp [aset, h1]]
    rw [ih (by intro h2; exact h (by simp [keysOf] at h2 ⊢; exact Or.inr h2))]
    rfl

theorem foldl_aset_map (f : C × ℕ → ℕ) (votes : List (C × ℕ)) :
    ∀ (acc : Cnt C), (∀ e ∈ votes, e.1 ∉ keysOf acc) → (keysOf votes).Nodup →
      votes.foldl (fun a e => aset a e.1 (f e)) acc = acc ++ votes.map (fun e => (e.1, f e)) := by
  induction votes with
  | nil => intro acc _ _; simp
  | cons e rest ih =>
    intro acc hdisj hnd
    have hcons : keysOf (e :: rest) = e.1 :: keysOf rest := rfl
    rw [hcons] at hnd
    have hnd' : (keysOf rest).Nodup := (List.nodup_cons.mp hnd).2
    have hnotin : e.1 ∉ keysOf rest := (List.nodup_cons.mp hnd).1
    rw [List.foldl_cons, aset_of_not_mem acc e.1 (f e) (hdisj e (by simp))]
    rw [ih (acc ++ [(e.1, f e)]) ?_ hnd']
    · simp
    · intro e' he' hmem
      rw [show keysOf (acc ++ [(e.1, f e)]) = keysOf acc ++ [e.1] by simp [keysOf]] at hmem
      rcases List.mem_append.mp hmem with h1 | h1
      · exact hdisj e' (List.mem_cons_of_mem _ he') h1
      · have h2 : e'.1 = e.1 := by simpa using h1
        apply hnotin
        rw [← h2]
        exact List.mem_map_of_mem _ he'

theorem keysOf_mapVal (h : ℕ → ℕ) (votes : Cnt C) :
    keysOf (votes.map (fun e => (e.1, h e.2))) = keysOf votes := by
  simp [keysOf, List.map_map]

theorem cntGet_mapVal (h : ℕ → ℕ) (votes : Cnt C) (p : C) (hp : p ∈ keysOf votes) :
    cntGet (votes.map (fun e => (e.1, h e.2))) p = h (cntGet votes p) := by
  induction votes with
  | nil => simp [keysOf] at hp
  | cons e rest ih =>
    rw [List.map_cons, cntGet_cons, cntGet_cons]
    by_cases h1 : e.1 = p
    · simp [h1]
    · rw [if_neg h1, if_neg h1]
      apply ih
      rw [show keysOf (e :: rest) = e.1 :: keysOf rest from rfl] at hp
      rcases List.mem_cons.mp hp with h2 | h2
      · exact absurd h2.symm h1
      · exact h2

theorem cntTotal_mapVal (h : ℕ → ℕ) (votes : Cnt C) :
    cntTotal (votes.map (fun e => (e.1, h e.2))) = (votes.map (fun e => h e.2)).sum := by
  simp [cntTotal, List.map_map]
  rfl

theorem sum_div_add_mod (l : List ℕ) (T : ℕ) :
    l.sum = T * (l.map (· / T)).sum + (l.map (· % T)).sum := by
  induction l with
  | nil => simp
  | cons a rest ih =>
    rw [List.sum_cons, List.map_cons, List.map_cons, List.sum_cons, List.sum_cons, Nat.mul_add]
    have h := Nat.div_add_mod a T
    omega

theorem hamilton_eq (nSeats : ℕ) (votes : Cnt C) (hnd : (keysOf votes).Nodup) :
    hamilton nSeats votes =
      cntUpdate (votes.map (fun e => (e.1, e.2 * nSeats / cntTotal votes)))
        ((List.insertionSort
            (fun a b =>
              cntGet (votes.map (fun e => (e.1, e.2 * nSeats % cntTotal votes))) b ≤
              cntGet (votes.map (fun e => (e.1, e.2 * nSeats % cntTotal votes))) a)
            (keysOf (votes.map (fun e => (e.1, e.2 * nSeats % cntTotal votes))))).take
          (nSeats - cntTotal (votes.map (fun e => (e.1, e.2 * nSeats / cntTotal votes))))) := by
  simp only [hamilton]
  rw [foldl_prod votes (fun a e => aset a e.1 (e.2 * nSeats / cntTotal votes))
      (fun a e => aset a e.1 (e.2 * nSeats % cntTotal votes)) [] [],
    foldl_aset_map (fun e => e.2 * nSeats / cntTotal votes) votes []
      (fun e he h => List.not_mem_nil _ h) hnd,
    foldl_aset_map (fun e => e.2 * nSeats % cntTotal votes) votes []
      (fun e he h => List.not_mem_nil _ h) hnd]
  simp

theorem hamilton_master (nSeats : ℕ) (votes : Cnt C)
    (hnd : (keysOf votes).Nodup) (hT : 0 < cntTotal votes) :
    ∃ extra : List C,
      extra.Nodup ∧ (∀ p ∈ extra, p ∈ keysOf votes) ∧
      extra.length = nSeats - (votes.map (fun e => e.2 * nSeats / cntTotal votes)).sum ∧
      (votes.map (fun e => e.2 * nSeats / cntTotal votes)).sum ≤ nSeats ∧
      cntTotal (hamilton nSeats votes) = nSeats ∧
      (∀ p ∈ keysOf votes, cntGet (hamilton nSeats votes) p =
          cntGet votes p * nSeats / cntTotal votes + (if p ∈ extra then 1 else 0)) ∧
      (∀ p ∈ keysOf votes, p ∉ extra → ∀ q ∈ extra,
          cntGet votes p * nSeats % cntTotal votes ≤ cntGet votes q * nSeats % cntTotal votes) := by
  have heq := hamilton_eq nSeats votes hnd
  set T := cntTotal votes with hT0
  set seatsL := votes.map (fun e => (e.1, e.2 * nSeats / T)) with hseats0
  set remL := votes.map (fun e => (e.1, e.2 * nSeats % T)) with hrem0
  set sorted := List.insertionSort
    (fun a b => cntGet remL b ≤ cntGet remL a) (keysOf remL) with hsorted0
  set k := nSeats - cntTotal seatsL with hk0
  set Sd := (votes.map (fun e => e.2 * nSeats / T)).sum with hSd0
  set Rm := (votes.map (fun e => e.2 * nSeats % T)).sum with hRm0
  have htot_seats : cntTotal seatsL = Sd := by
    rw [hseats0, hSd0]; exact cntTotal_mapVal (fun v => v * nSeats / T) votes
  have hkeys_rem : keysOf remL = keysOf votes := by
    rw [hrem0]; exact keysOf_mapVal (fun v => v * nSeats % T) votes
  have hsum_id : T * nSeats = T * Sd + Rm := by
    have h := sum_div_add_mod (votes.map (fun e => e.2 * nSeats)) T
    rw [List.map_map, List.map_map] at h
    have hL : (votes.map (fun e => e.2 * nSeats)).sum = T * nSeats := by
      rw [hT0, cntTotal]
      rw [Nat.mul_comm (List.sum (List.map (fun x => x.2) votes)) nSeats] at *
      rw [Nat.mul_comm]
      exact List.sum_map_mul_right votes (·.2) nSeats
    rw [hL] at h
    rw [hSd0, hRm0]
    simpa [Function.comp] using h
  have hSle : Sd ≤ nSeats := by
    have h1 : T * Sd ≤ T * nSeats := by omega
    exact Nat.le_of_mul_le_mul_left h1 hT
  have hkSd : Sd + k = nSeats := by
    rw [hk0, htot_seats]; omega
  have hTk : T * k = Rm := by
    have h1 : T * (Sd + k) = T * nSeats := by rw [hkSd]
    rw [Nat.mul_add] at h1
    omega
  have hRle : Rm ≤ votes.length * (T - 1) := by
    have h := List.sum_le_card_nsmul (votes.map (fun e => e.2 * nSeats % T)) (T - 1) ?_
    · rw [hRm0]
      simpa [smul_eq_mul] using h
    · intro x hx
      rcases List.mem_map.mp hx with ⟨e, he, rfl⟩
      have := Nat.mod_lt (e.2 * nSeats) hT
      omega
  have hklen : k ≤ votes.length := by
    have h1 : votes.length * (T - 1) ≤ votes.length * T :=
      Nat.mul_le_mul_left _ (by omega)
    have h2 : T * k ≤ votes.length * T := le_trans (by rw [hTk]; exact hRle) h1
    rw [Nat.mul_comm votes.length T] at h2
    exact Nat.le_of_mul_le_mul_left h2 hT
  have hperm : sorted.Perm (keysOf remL) := by
    rw [hsorted0]; exact List.perm_insertionSort _ _
  have hsortlen : sorted.length = votes.length := by
    rw [hperm.length_eq, hkeys_rem]; simp [keysOf]
  have hkeysnd : (keysOf remL).Nodup := by rw [hkeys_rem]; exact hnd
  have hsortnd : sorted.Nodup := (List.Perm.nodup_iff hperm).mpr hkeysnd
  have hextralen : (sorted.take k).length = k := by
    rw [List.length_take, hsortlen]
    exact min_eq_left hklen
  have hextrand : (sorted.take k).Nodup := (List.take_sublist k sorted).nodup hsortnd
  have hextramem : ∀ p ∈ sorted.take k, p ∈ keysOf votes := by
    intro p hp
    rw [← hkeys_rem]
    exact hperm.mem_iff.mp (List.mem_of_mem_take hp)
  letI : IsTotal C (fun a b => cntGet remL b ≤ cntGet remL a) :=
    ⟨fun a b => le_total (cntGet remL b) (cntGet remL a)⟩
  letI : IsTrans C (fun a b => cntGet remL b ≤ cntGet remL a) :=
    ⟨fun a b c h1 h2 => le_trans h2 h1⟩
  have hpw : List.Pairwise (fun a b => cntGet remL b ≤ cntGet remL a) sorted := by
    rw [hsorted0]
    exact List.sorted_insertionSort _ _
  have hsplit : sorted.take k ++ sorted.drop k = sorted := List.take_append_drop k sorted
  have hcross : ∀ a ∈ sorted.take k, ∀ b ∈ sorted.drop k,
      cntGet remL b ≤ cntGet remL a := by
    rw [← hsplit] at hpw
    exact (List.pairwise_append.mp hpw).2.2
  refine ⟨sorted.take k, hextrand, hextramem, by rw [hextralen, hk0, htot_seats], hSle, ?_, ?_, ?_⟩
  · rw [heq, cntTotal_cntUpdate, hextralen, htot_seats]
    omega
  · intro p hp
    rw [heq, cntGet_cntUpdate]
    have hseatget : cntGet seatsL p = cntGet votes p * nSeats / T := by
      rw [hseats0]; exact cntGet_mapVal (fun v => v * nSeats / T) votes p hp
    rw [hseatget]
    congr 1
    have hc1 : List.count p (sorted.take k) ≤ 1 := List.nodup_iff_count_le_one.mp hextrand p
    by_cases hmem : p ∈ sorted.take k
    · rw [if_pos hmem]
      have hc0 : List.count p (sorted.take k) ≠ 0 := by
        intro h0
        exact (List.count_eq_zero.mp h0) hmem
      omega
    · rw [if_neg hmem]
      exact List.count_eq_zero.mpr hmem
  · intro p hp hpext q hq
    have hpsort : p ∈ sorted := by
      rw [hperm.mem_iff, hkeys_rem]
      exact hp
    have hpdrop : p ∈ sorted.drop k := by
      rw [← hsplit] at hpsort
      rcases List.mem_append.mp hpsort with h1 | h1
      · exact absurd h1 hpext
      · exact h1
    have h1 := hcross q hq p hpdrop
    rw [hrem0, cntGet_mapVal (fun v => v * nSeats % T) votes p hp,
      cntGet_mapVal (fun v => v * nSeats % T) votes q (hextramem q hq)] at h1
    exact h1

theorem cntTotal_singleton (w : C) (n : ℕ) : cntTotal [(w, n)] = n := by
  simp [cntTotal]

theorem rankIndexLoop_total (f : ℚ → ℕ → ℚ) (fractions : C → ℚ) :
    ∀ (n : ℕ) (parties : List C) (riv : C → ℚ) (seats s : Cnt C),
      rankIndexLoop f fractions n parties riv seats = some s →
      cntTotal s = cntTotal seats + n := by
  intro n
  induction n with
  | zero =>
    intro parties riv seats s h
    simp [rankIndexLoop] at h
    rw [← h]
    omega
  | succ sn ih =>
    intro parties riv seats s h
    unfold rankIndexLoop at h
    rcases hp : popLast parties with _ | ⟨rest, winner⟩ <;> rw [hp] at h
    · exact absurd h (by simp)
    · have h2 := ih _ _ _ s h
      rw [h2, cntIncrement, cntTotal_incrementBy]
      omega

theorem proportionalFromRankIndexFunction_total (nSeats : ℕ) (f : ℚ → ℕ → ℚ)
    (votes s : Cnt C) (h : proportionalFromRankIndexFunction nSeats f votes = some s) :
    cntTotal s = nSeats := by
  unfold proportionalFromRankIndexFunction at h
  have h2 := rankIndexLoop_total f _ nSeats _ _ [] s h
  simpa [cntTotal_nil] using h2

theorem plurality_total (nSeats : ℕ) (votes s : Cnt C)
    (h : plurality nSeats votes = .ok s) : cntTotal s = nSeats := by
  rcases hm : listMax? (fun p => cntGet votes p) (keysOf votes) with _ | win
  · have hp : plurality nSeats votes = .error .typeError := by
      unfold plurality; rw [hm]
    rw [hp] at h; exact absurd h (by simp)
  · have hp : plurality nSeats votes =
        if 0 < cntGet votes win then .ok [(win, nSeats)] else .error .attributionFailure := by
      unfold plurality; rw [hm]
    rw [hp] at h
    by_cases hpos : 0 < cntGet votes win
    · rw [if_pos hpos] at h
      simp only [Except.ok.injEq] at h
      rw [← h, cntTotal_singleton]
    · rw [if_neg hpos] at h; exact absurd h (by simp)

theorem superMajority_eq_of_max (nSeats : ℕ) (threshold : ℚ)
    (contingency : Option (SimpleAttribution C)) (votes : Cnt C) (win : C)
    (hm : listMax? (fun p => cntGet votes p) (keysOf votes) = some win) :
    superMajority nSeats threshold contingency votes =
      if (cntGet votes win : ℚ) / (cntTotal votes : ℚ) > threshold then .ok [(win, nSeats)]
      else
        match contingency with
        | none => .error .attributionFailure
        | some c => c votes := by
  unfold superMajority; rw [hm]

theorem superMajority_total (nSeats : ℕ) (threshold : ℚ)
    (contingency : Option (SimpleAttribution C)) (votes s : Cnt C)
    (hc : ∀ cf s', contingency = some cf → cf votes = .ok s' → cntTotal s' = nSeats)
    (h : superMajority nSeats threshold contingency votes = .ok s) :
    cntTotal s = nSeats := by
  rcases hm : listMax? (fun p => cntGet votes p) (keysOf votes) with _ | win
  · have hp : superMajority nSeats threshold contingency votes = .error .typeError := by
      unfold superMajority; rw [hm]
    rw [hp] at h; exact absurd h (by simp)
  · rw [superMajority_eq_of_max nSeats threshold contingency votes win hm] at h
    by_cases hgt : (cntGet votes win : ℚ) / (cntTotal votes : ℚ) > threshold
    · rw [if_pos hgt] at h
      simp only [Except.ok.injEq] at h
      rw [← h, cntTotal_singleton]
    · rw [if_neg hgt] at h
      rcases contingency with _ | cf
      · exact absurd h (by simp)
      · exact hc cf s rfl h

theorem runoffLoop_total (nSeats : ℕ) (votes : OrderTally C) :
    ∀ (fuel : ℕ) (bl : List C) (s : Cnt C),
      runoffLoop nSeats votes fuel bl = .ok s → cntTotal s = nSeats := by
  intro fuel
  induction fuel with
  | zero =>
    intro bl s h
    exact absurd h (by simp [runoffLoop])
  | succ n ih =>
    intro bl s h
    simp only [runoffLoop] at h
    split at h
    · simp only [Except.ok.injEq] at h
      rw [← h, cntTotal_singleton]
    · split at h
      · exact absurd h (by simp)
      · exact ih _ s h

theorem instantRunoff_total (nSeats : ℕ) (votes : OrderTally C) (s : Cnt C)
    (h : instantRunoff nSeats votes = .ok s) : cntTotal s = nSeats :=
  runoffLoop_total nSeats votes _ _ s h

theorem bordaCount_total (nSeats : ℕ) (votes : OrderTally C) (s : Cnt C)
    (h : bordaCount nSeats votes = .ok s) : cntTotal s = nSeats := by
  simp only [bordaCount] at h
  split at h
  · exact absurd h (by simp)
  · simp only [Except.ok.injEq] at h
    rw [← h, cntTotal_singleton]

theorem condorcet_total (nSeats : ℕ)
    (contingency : Option (OrderTally C → Except Err (Cnt C)))
    (votes : OrderTally C) (s : Cnt C)
    (hc : ∀ cf s', contingency = some cf → cf votes = .ok s' → cntTotal s' = nSeats)
    (h : condorcet nSeats contingency votes = .ok s) : cntTotal s = nSeats := by
  simp only [condorcet] at h
  split at h
  · simp only [Except.ok.injEq] at h
    rw [← h, cntTotal_singleton]
  · rcases contingency with _ | cf
    · exact absurd h (by simp)
    · exact hc cf s rfl h
  · exact absurd h (by simp)

theorem averageScore_total (nSeats : ℕ) (votes : ScoresTally C) (s : Cnt C)
    (h : averageScore nSeats votes = .ok s) : cntTotal s = nSeats := by
  simp only [averageScore] at h
  split at h
  · exact absurd h (by simp)
  · simp only [Except.ok.injEq] at h
    rw [← h, cntTotal_singleton]

theorem medianScore_total (nSeats : ℕ)
    (contingency : Option (ScoresTally C → Except Err (Cnt C)))
    (votes : ScoresTally C) (s : Cnt C)
    (hc : ∀ cf v s', contingency = some cf → cf v = .ok s' → cntTotal s' = nSeats)
    (h : medianScore nSeats contingency votes = .ok s) : cntTotal s = nSeats := by
  simp only [medianScore] at h
  split at h
  · exact absurd h (by simp)
  · simp only [Except.ok.injEq] at h
    rw [← h, cntTotal_singleton]
  · rcases contingency with _ | cf
    · exact averageScore_total nSeats _ s h
    · exact hc cf _ s rfl h

theorem cntTotal_cntFromList (draws : List C) :
    cntTotal (cntFromList draws) = draws.length := by
  have h : cntFromList draws = cntUpdate [] draws := rfl
  rw [h, cntTotal_cntUpdate, cntTotal_nil]
  omega

theorem randomize_total (nSeats : ℕ) (choices : List C → List ℕ → ℕ → List C)
    (votes : Cnt C) (hch : ∀ ks ws k, (choices ks ws k).length = k) :
    cntTotal (randomize nSeats choices votes) = nSeats := by
  unfold randomize
  rw [cntTotal_cntFromList, hch]

theorem hamilton_total (nSeats : ℕ) (votes : Cnt C)
    (hnd : (keysOf votes).Nodup) (hT : 0 < cntTotal votes) :
    cntTotal (hamilton nSeats votes) = nSeats := by
  rcases hamilton_master nSeats votes hnd hT with ⟨extra, _, _, _, _, h5, _, _⟩
  exact h5

theorem cntIncrementBy_pos (l : Cnt C) (p : C) (k : ℕ) (hk : 0 < k)
    (h : ∀ e ∈ l, 0 < e.2) : ∀ e ∈ cntIncrementBy l p k, 0 < e.2 := by
  induction l with
  | nil =>
    intro e he
    simp [cntIncrementBy] at he
    rw [he]
    exact hk
  | cons a rest ih =>
    intro e he
    by_cases ha : a.1 = p
    · rw [show cntIncrementBy (a :: rest) p k = (a.1, a.2 + k) :: rest by
        simp [cntIncrementBy, ha]] at he
      rcases List.mem_cons.mp he with h1 | h1
      · rw [h1]; simp; omega
      · exact h e (List.mem_cons_of_mem _ h1)
    · rw [show cntIncrementBy (a :: rest) p k = a :: cntIncrementBy rest p k by
        simp [cntIncrementBy, ha]] at he
      rcases List.mem_cons.mp he with h1 | h1
      · rw [h1]; exact h a (List.mem_cons_self _ _)
      · exact ih (fun e' he' => h e' (List.mem_cons_of_mem _ he')) e h1

theorem cntIncrement_pos (l : Cnt C) (p : C) (h : ∀ e ∈ l, 0 < e.2) :
    ∀ e ∈ cntIncrement l p, 0 < e.2 :=
  cntIncrementBy_pos l p 1 (by omega) h

theorem cntPos_eq_self (l : Cnt C) (h : ∀ e ∈ l, 0 < e.2) : cntPos l = l := by
  unfold cntPos
  rw [List.filter_eq_self]
  intro a ha
  simpa using h a ha

theorem rankIndexLoop_none (f : ℚ → ℕ → ℚ) (fractions : C → ℚ) (sn : ℕ)
    (parties : List C) (riv : C → ℚ) (seats : Cnt C)
    (hp : popLast parties = none) :
    rankIndexLoop f fractions (sn + 1) parties riv seats = none := by
  unfold rankIndexLoop; rw [hp]

theorem rankIndexLoop_step (f : ℚ → ℕ → ℚ) (fractions : C → ℚ) (sn : ℕ)
    (parties : List C) (riv : C → ℚ) (seats : Cnt C) (rest : List C) (winner : C)
    (hp : popLast parties = some (rest, winner)) :
    rankIndexLoop f fractions (sn + 1) parties riv seats =
      rankIndexLoop f fractions sn
        (insertParty
          (fun q => if q = winner then
              f (fractions winner) (cntGet (cntIncrement seats winner) winner)
            else riv q) winner rest)
        (fun q => if q = winner then
            f (fractions winner) (cntGet (cntIncrement seats winner) winner)
          else riv q)
        (cntIncrement seats winner) := by
  conv_lhs => unfold rankIndexLoop
  rw [hp]

theorem boundedLoop_none (f : ℚ → ℕ → ℚ) (metric : Metric C) (votes : Cnt C)
    (fractions : C → ℚ) (minN r sn : ℕ) (parties : List C) (riv : C → ℚ)
    (seats best : Cnt C) (bestMetric : Option ℚ)
    (hp : popLast parties = none) :
    boundedLoop f metric votes fractions minN (r + 1) sn parties riv seats best bestMetric =
      none := by
  unfold boundedLoop; rw [hp]

theorem boundedLoop_step (f : ℚ → ℕ → ℚ) (metric : Metric C) (votes : Cnt C)
    (fractions : C → ℚ) (minN r sn : ℕ) (parties : List C) (riv : C → ℚ)
    (seats best : Cnt C) (bestMetric : Option ℚ) (rest : List C) (winner : C)
    (hp : popLast parties = some (rest, winner)) :
    boundedLoop f metric votes fractions minN (r + 1) sn parties riv seats best bestMetric =
      boundedLoop f metric votes fractions minN r (sn + 1)
        (insertParty
          (fun q => if q = winner then
              f (fractions winner) (cntGet (cntIncrement seats winner) winner)
            else riv q) winner rest)
        (fun q => if q = winner then
            f (fractions winner) (cntGet (cntIncrement seats winner) winner)
          else riv q)
        (cntIncrement seats winner)
        (if minN ≤ sn then
            (if metricLt (metric votes (cntIncrement seats winner)) bestMetric then
               (cntPos (cntIncrement seats winner),
                some (metric votes (cntIncrement seats winner)))
             else (best, bestMetric))
          else (best, bestMetric)).1
        (if minN ≤ sn then
            (if metricLt (metric votes (cntIncrement seats winner)) bestMetric then
               (cntPos (cntIncrement seats winner),
                some (metric votes (cntIncrement seats winner)))
             else (best, bestMetric))
          else (best, bestMetric)).2 := by
  conv_lhs => unfold boundedLoop
  rw [hp]

theorem boundedLoop_eq_rankIndexLoop (f : ℚ → ℕ → ℚ) (metric : Metric C)
    (votes : Cnt C) (fractions : C → ℚ) (minN : ℕ) :
    ∀ (r sn : ℕ) (parties : List C) (riv : C → ℚ) (seats best : Cnt C),
      1 ≤ r → sn + r = minN + 1 → (∀ e ∈ seats, 0 < e.2) →
      boundedLoop f metric votes fractions minN r sn parties riv seats best none =
        rankIndexLoop f fractions r parties riv seats := by
  intro r
  induction r with
  | zero =>
    intro sn parties riv seats best h1 h2 h3
    omega
  | succ r ih =>
    intro sn parties riv seats best h1 h2 hpos
    rcases hp : popLast parties with _ | ⟨rest, winner⟩
    · rw [boundedLoop_none f metric votes fractions minN r sn parties riv seats best none hp,
        rankIndexLoop_none f fractions r parties riv seats hp]
    · rw [boundedLoop_step f metric votes fractions minN r sn parties riv seats best none
        rest winner hp,
        rankIndexLoop_step f fractions r parties riv seats rest winner hp]
      rcases Nat.eq_zero_or_pos r with hr0 | hrpos
      · subst hr0
        have hsn : minN ≤ sn := by omega
        rw [if_pos hsn]
        have hposinc := cntIncrement_pos seats winner hpos
        show some (cntPos (cntIncrement seats winner)) = some (cntIncrement seats winner)
        rw [cntPos_eq_self _ hposinc]
      · have hsn : ¬ (minN ≤ sn) := by omega
        rw [if_neg hsn]
        exact ih (sn + 1) _ _ _ best (by omega) (by omega)
          (cntIncrement_pos seats winner hpos)

/-- Claim C5: for every non-empty simple tally, plurality raises
AttributionFailure iff the maximum ballot count is zero; when it is positive
it gives all nSeats to a candidate achieving that maximum; on {A:5,B:3} with
nSeats=1 it returns {A:1}; on {A:0,B:0} it raises AttributionFailure; on a
fully-empty tally the error raised is not an AttributionFailure. -/
theorem claim_C5_plurality (nSeats : ℕ) (votes : Cnt C) (hne : votes ≠ []) :
    (plurality nSeats votes = .error .attributionFailure ↔ maxVoteCount votes = 0)
    ∧ (0 < maxVoteCount votes →
        ∃ w, cntGet votes w = maxVoteCount votes ∧ plurality nSeats votes = .ok [(w, nSeats)])
    ∧ plurality 1 [((0:ℕ),5),(1,3)] = .ok [(0,1)]
    ∧ plurality nSeats [((0:ℕ),0),(1,0)] = .error .attributionFailure
    ∧ plurality nSeats ([] : Cnt ℕ) = .error .typeError
    ∧ Err.isAttributionFailure .typeError = false := by
  rcases listMax?_spec (fun p => cntGet votes p) (keysOf votes) (keysOf_ne_nil votes hne)
    with ⟨w, hw, hmem, hall⟩
  have hmax := maxVoteCount_eq_of_listMax? votes w hw
  refine ⟨?_, ?_, rfl, rfl, rfl, rfl⟩
  · rw [hmax]
    unfold plurality
    rw [hw]
    simp only []
    by_cases hpos : 0 < cntGet votes w
    · rw [if_pos hpos]
      constructor
      · intro h; exact absurd h (by simp)
      · intro h; omega
    · rw [if_neg hpos]
      constructor
      · intro _; omega
      · intro _; rfl
  · intro hpos
    refine ⟨w, hmax.symm, ?_⟩
    unfold plurality
    rw [hw]
    simp only []
    rw [if_pos (by omega : 0 < cntGet votes w)]

/-- Witness for claim C5 at a concrete non-empty tally. -/
theorem claim_C5_plurality_witness :
    (plurality 4 [((0:ℕ),3),(1,7)] = .error .attributionFailure ↔
      maxVoteCount [((0:ℕ),3),(1,7)] = 0)
    ∧ (0 < maxVoteCount [((0:ℕ),3),(1,7)] →
        ∃ w, cntGet [((0:ℕ),3),(1,7)] w = maxVoteCount [((0:ℕ),3),(1,7)] ∧
          plurality 4 [((0:ℕ),3),(1,7)] = .ok [(w, 4)]) :=
  ⟨(claim_C5_plurality 4 [((0:ℕ),3),(1,7)] (by decide)).1,
   (claim_C5_plurality 4 [((0:ℕ),3),(1,7)] (by decide)).2.1⟩

/-- Claim C4: for every non-empty simple tally with positive total,
superMajority awards all nSeats to the candidate with the maximum count iff
that count over the total strictly exceeds the threshold; at exact equality
the win branch is not taken and the call delegates to the contingency, or
raises AttributionFailure when none is given. -/
theorem claim_C4_superMajority (nSeats : ℕ) (threshold : ℚ)
    (contingency : Option (SimpleAttribution C)) (votes : Cnt C)
    (hne : votes ≠ []) (hT : 0 < cntTotal votes) :
    ((maxVoteCount votes : ℚ) / (cntTotal votes : ℚ) > threshold →
      ∃ w, cntGet votes w = maxVoteCount votes ∧
        superMajority nSeats threshold contingency votes = .ok [(w, nSeats)])
    ∧ (¬ ((maxVoteCount votes : ℚ) / (cntTotal votes : ℚ) > threshold) →
        superMajority nSeats threshold contingency votes =
          (match contingency with
            | none => .error .attributionFailure
            | some c => c votes))
    ∧ ((maxVoteCount votes : ℚ) = threshold * (cntTotal votes : ℚ) →
        superMajority nSeats threshold contingency votes =
          (match contingency with
            | none => .error .attributionFailure
            | some c => c votes))
    ∧ ((∃ w, cntGet votes w = maxVoteCount votes ∧
          superMajority nSeats threshold none votes = .ok [(w, nSeats)]) ↔
        (maxVoteCount votes : ℚ) / (cntTotal votes : ℚ) > threshold) := by
  rcases listMax?_spec (fun p => cntGet votes p) (keysOf votes) (keysOf_ne_nil votes hne)
    with ⟨w, hw, hmem, hall⟩
  have hmax := maxVoteCount_eq_of_listMax? votes w hw
  have hTQ : (0 : ℚ) < (cntTotal votes : ℚ) := by exact_mod_cast hT
  have hwin : ∀ (cont : Option (SimpleAttribution C)),
      superMajority nSeats threshold cont votes =
        (if (cntGet votes w : ℚ) / (cntTotal votes : ℚ) > threshold then .ok [(w, nSeats)]
          else (match cont with
            | none => .error .attributionFailure
            | some c => c votes)) := by
    intro cont
    unfold superMajority
    rw [hw]
  constructor
  · intro h
    refine ⟨w, hmax.symm, ?_⟩
    rw [hwin, if_pos (by rw [← hmax]; exact h)]
  constructor
  · intro h
    rw [hwin, if_neg (by rw [hmax] at h; exact h)]
  constructor
  · intro heq
    have hdiv : (maxVoteCount votes : ℚ) / (cntTotal votes : ℚ) = threshold := by
      rw [div_eq_iff (ne_of_gt hTQ)]; exact heq
    rw [hwin, if_neg (by rw [hmax] at hdiv; rw [hdiv]; exact lt_irrefl threshold)]
  · constructor
    · rintro ⟨w', hw', hok⟩
      by_contra h
      rw [hwin, if_neg (by rw [hmax] at h; exact h)] at hok
      exact absurd hok (by simp)
    · intro h
      refine ⟨w, hmax.symm, ?_⟩
      rw [hwin, if_pos (by rw [← hmax]; exact h)]

/-- Witness for claim C4 at a concrete tally and threshold. -/
theorem claim_C4_superMajority_witness :
    (∃ w, cntGet [((0:ℕ),5),(1,3)] w = maxVoteCount [((0:ℕ),5),(1,3)] ∧
        superMajority 3 (1/2) none [((0:ℕ),5),(1,3)] = .ok [(w, 3)]) ↔
      (maxVoteCount [((0:ℕ),5),(1,3)] : ℚ) / (cntTotal [((0:ℕ),5),(1,3)] : ℚ) > 1/2 :=
  (claim_C4_superMajority 3 (1/2) none [((0:ℕ),5),(1,3)] (by decide) (by decide)).2.2.2

/-- Claim C3: with a positive threshold, the combinator calls the base
attribution on the tally filtered to the candidates reaching
`threshold * total` when that filter is non-empty; when it is empty it
calls the contingency on the original tally, raising AttributionFailure
for the explicit null sentinel; with threshold 0 the base attribution is
called on the unmodified tally and the contingency is never invoked. -/
theorem claim_C3_addThresholdToSimpleAttribution (threshold : ℚ)
    (attribution : SimpleAttribution C) (contingency : ThresholdContingency C)
    (votes : Cnt C) (hT : 0 < cntTotal votes) (ht : 0 < threshold) :
    (votes.filter (fun e => (e.2 : ℚ) ≥ threshold * (cntTotal votes : ℚ)) ≠ [] →
      addThresholdToSimpleAttribution threshold attribution contingency votes =
        attribution (votes.filter (fun e => (e.2 : ℚ) ≥ threshold * (cntTotal votes : ℚ))))
    ∧ (votes.filter (fun e => (e.2 : ℚ) ≥ threshold * (cntTotal votes : ℚ)) = [] →
        addThresholdToSimpleAttribution threshold attribution contingency votes =
          (match contingency with
            | .fail => .error .attributionFailure
            | .dflt => attribution votes
            | .given c => c votes))
    ∧ (∀ cont : ThresholdContingency C,
        addThresholdToSimpleAttribution 0 attribution cont votes = attribution votes) := by
  refine ⟨?_, ?_, ?_⟩
  · intro hne
    unfold addThresholdToSimpleAttribution
    rw [if_pos ht]
    simp only []
    rw [if_neg (by simpa [List.length_eq_zero] using hne)]
  · intro hemp
    unfold addThresholdToSimpleAttribution
    rw [if_pos ht]
    simp only []
    rw [if_pos (by simpa [List.length_eq_zero] using hemp)]
  · intro cont
    unfold addThresholdToSimpleAttribution
    rw [if_neg (by exact lt_irrefl 0)]

/-- Claim C6: for every valid simple tally with positive total, hamilton
awards each candidate the integer part of its Hare quota and one extra seat
to each of the `nSeats - sum of integer parts` candidates with the largest
remainders (ties broken by the stable sort); on {A:41,B:29,C:17,D:13} with
nSeats=10 it returns {A:4,B:3,C:2,D:1}. -/
theorem claim_C6_hamilton (nSeats : ℕ) (votes : Cnt C)
    (hnd : (keysOf votes).Nodup) (hT : 0 < cntTotal votes) :
    (∃ extra : List C,
        extra.Nodup ∧ (∀ p ∈ extra, p ∈ keysOf votes) ∧
        extra.length = nSeats - (votes.map (fun e => e.2 * nSeats / cntTotal votes)).sum ∧
        (∀ p ∈ keysOf votes,
          cntGet (hamilton nSeats votes) p =
            cntGet votes p * nSeats / cntTotal votes + (if p ∈ extra then 1 else 0)) ∧
        (∀ p ∈ keysOf votes, p ∉ extra → ∀ q ∈ extra,
          cntGet votes p * nSeats % cntTotal votes ≤ cntGet votes q * nSeats % cntTotal votes))
    ∧ hamilton 10 [((0:ℕ),41),(1,29),(2,17),(3,13)] = [(0,4),(1,3),(2,2),(3,1)] := by
  constructor
  · rcases hamilton_master nSeats votes hnd hT with ⟨extra, h1, h2, h3, h4, h5, h6, h7⟩
    exact ⟨extra, h1, h2, h3, h6, h7⟩
  · decide

/-- Witness for claim C6 at the canonical four-candidate tally. -/
theorem claim_C6_hamilton_witness :
    hamilton 10 [((0:ℕ),41),(1,29),(2,17),(3,13)] = [(0,4),(1,3),(2,2),(3,1)] :=
  (claim_C6_hamilton 10 [((0:ℕ),41),(1,29),(2,17),(3,13)] (by decide) (by decide)).2

/-- Claim C1: every attribution built with a fixed seat count returns a
seat mapping summing to nSeats whenever it returns normally (for the
combinators, provided the contingency does the same; randomize provided
the injected generator draws nSeats items). -/
theorem claim_C1_sum_of_seats (nSeats : ℕ) :
    (∀ (f : ℚ → ℕ → ℚ) (votes s : Cnt C),
        proportionalFromRankIndexFunction nSeats f votes = some s → cntTotal s = nSeats)
    ∧ (∀ votes : Cnt C, (keysOf votes).Nodup → 0 < cntTotal votes →
        cntTotal (hamilton nSeats votes) = nSeats)
    ∧ (∀ votes s : Cnt C, plurality nSeats votes = .ok s → cntTotal s = nSeats)
    ∧ (∀ (threshold : ℚ) (contingency : Option (SimpleAttribution C)) (votes s : Cnt C),
        (∀ cf s', contingency = some cf → cf votes = .ok s' → cntTotal s' = nSeats) →
        superMajority nSeats threshold contingency votes = .ok s → cntTotal s = nSeats)
    ∧ (∀ (votes : OrderTally C) (s : Cnt C),
        instantRunoff nSeats votes = .ok s → cntTotal s = nSeats)
    ∧ (∀ (votes : OrderTally C) (s : Cnt C),
        bordaCount nSeats votes = .ok s → cntTotal s = nSeats)
    ∧ (∀ (contingency : Option (OrderTally C → Except Err (Cnt C)))
        (votes : OrderTally C) (s : Cnt C),
        (∀ cf s', contingency = some cf → cf votes = .ok s' → cntTotal s' = nSeats) →
        condorcet nSeats contingency votes = .ok s → cntTotal s = nSeats)
    ∧ (∀ (votes : ScoresTally C) (s : Cnt C),
        averageScore nSeats votes = .ok s → cntTotal s = nSeats)
    ∧ (∀ (contingency : Option (ScoresTally C → Except Err (Cnt C)))
        (votes : ScoresTally C) (s : Cnt C),
        (∀ cf v s', contingency = some cf → cf v = .ok s' → cntTotal s' = nSeats) →
        medianScore nSeats contingency votes = .ok s → cntTotal s = nSeats)
    ∧ (∀ (choices : List C → List ℕ → ℕ → List C) (votes : Cnt C),
        (∀ ks ws k, (choices ks ws k).length = k) →
        cntTotal (randomize nSeats choices votes) = nSeats) :=
  ⟨fun f votes s h => proportionalFromRankIndexFunction_total nSeats f votes s h,
   fun votes hnd hT => hamilton_total nSeats votes hnd hT,
   fun votes s h => plurality_total nSeats votes s h,
   fun threshold contingency votes s hc h =>
     superMajority_total nSeats threshold contingency votes s hc h,
   fun votes s h => instantRunoff_total nSeats votes s h,
   fun votes s h => bordaCount_total nSeats votes s h,
   fun contingency votes s hc h => condorcet_total nSeats contingency votes s hc h,
   fun votes s h => averageScore_total nSeats votes s h,
   fun contingency votes s hc h => medianScore_total nSeats contingency votes s hc h,
   fun choices votes hch => randomize_total nSeats choices votes hch⟩

/-- Claim C7: for every rank-index function, every metric, every k ≥ 1 and
every non-empty valid simple tally with positive total,
boundedRankIndexMethod with minNSeats = maxNSeats = k returns the same seat
mapping as proportionalFromRankIndexFunction with nSeats = k. -/
theorem claim_C7_bounded_equals_fixed (k : ℕ) (f : ℚ → ℕ → ℚ) (metric : Metric C)
    (votes : Cnt C) (hk : 1 ≤ k) (hne : votes ≠ []) (hnd : (keysOf votes).Nodup)
    (hT : 0 < cntTotal votes) :
    boundedRankIndexMethod k k f metric votes =
      proportionalFromRankIndexFunction k f votes := by
  unfold boundedRankIndexMethod proportionalFromRankIndexFunction
  exact boundedLoop_eq_rankIndexLoop f metric votes _ k k 1 _ _ [] (cntPos []) hk
    (by omega) (fun e he => absurd he (List.not_mem_nil e))

/-- Witness for claim C7 at a concrete tally, rank-index function and metric. -/
theorem claim_C7_bounded_equals_fixed_witness :
    boundedRankIndexMethod 2 2 (fun t a => t / ((a : ℚ) + 1)) (fun _ _ => 0)
        [((0:ℕ),3),(1,1)] =
      proportionalFromRankIndexFunction 2 (fun t a => t / ((a : ℚ) + 1))
        [((0:ℕ),3),(1,1)] :=
  claim_C7_bounded_equals_fixed 2 (fun t a => t / ((a : ℚ) + 1)) (fun _ _ => 0)
    [((0:ℕ),3),(1,1)] (by omega) (by decide) (by decide) (by decide)

theorem runoffLoop_step_win (nSeats : ℕ) (votes : OrderTally C) (fuel : ℕ)
    (bl : List C) (e : C × ℕ)
    (hf : (firstPlacesOf votes bl).find?
        (fun x => decide ((x.2 : ℚ) / (cntTotal (firstPlacesOf votes bl) : ℚ) > 1/2)) =
      some e) :
    runoffLoop nSeats votes (fuel + 1) bl = .ok [(e.1, nSeats)] := by
  simp only [runoffLoop]
  rw [hf]

theorem runoffLoop_step_elim (nSeats : ℕ) (votes : OrderTally C) (fuel : ℕ)
    (bl : List C) (loser : C)
    (hf : (firstPlacesOf votes bl).find?
        (fun x => decide ((x.2 : ℚ) / (cntTotal (firstPlacesOf votes bl) : ℚ) > 1/2)) =
      none)
    (hm : listMin? (fun p => cntGet (firstPlacesOf votes bl) p)
        (keysOf (firstPlacesOf votes bl)) = some loser) :
    runoffLoop nSeats votes (fuel + 1) bl = runoffLoop nSeats votes fuel (bl ++ [loser]) := by
  simp only [runoffLoop]
  rw [hf, hm]

/-- Claim C8: on the Order tally [[A,B],[B,A],[C,A]], instant runoff
eliminates C (fewest first preferences, here the tie-break of `min`) in the
first round, and for every nSeats returns all the seats to A, a member of
{A,B} holding a strict majority of the second round's first preferences. -/
theorem claim_C8_instantRunoff :
    listMin? (fun p => cntGet (firstPlacesOf [[0,1],[1,0],[2,0]] ([] : List ℕ)) p)
        (keysOf (firstPlacesOf [[0,1],[1,0],[2,0]] ([] : List ℕ))) = some 2
    ∧ (∀ nSeats : ℕ, instantRunoff nSeats [[0,1],[1,0],[2,0]] = .ok [(0, nSeats)])
    ∧ (0:ℕ) ∈ [0, 1]
    ∧ (cntGet (firstPlacesOf [[0,1],[1,0],[2,0]] ([2] : List ℕ)) 0 : ℚ) /
        (cntTotal (firstPlacesOf [[0,1],[1,0],[2,0]] ([2] : List ℕ)) : ℚ) > 1/2 := by
  have hfp1 : firstPlacesOf [[0,1],[1,0],[2,0]] ([] : List ℕ) = [(0,1),(1,1),(2,1)] := rfl
  have hfp2 : firstPlacesOf [[0,1],[1,0],[2,0]] ([2] : List ℕ) = [(0,2),(1,1)] := rfl
  refine ⟨by decide, ?_, by decide, ?_⟩
  · intro nSeats
    have hf1 : (firstPlacesOf [[0,1],[1,0],[2,0]] ([] : List ℕ)).find?
        (fun x => decide ((x.2 : ℚ) /
          (cntTotal (firstPlacesOf [[0,1],[1,0],[2,0]] ([] : List ℕ)) : ℚ) > 1/2)) =
        none := by
      rw [hfp1]
      norm_num [List.find?, cntTotal]
    have hm1 : listMin? (fun p => cntGet (firstPlacesOf [[0,1],[1,0],[2,0]] ([] : List ℕ)) p)
        (keysOf (firstPlacesOf [[0,1],[1,0],[2,0]] ([] : List ℕ))) = some 2 := by decide
    have hf2 : (firstPlacesOf [[0,1],[1,0],[2,0]] ([2] : List ℕ)).find?
        (fun x => decide ((x.2 : ℚ) /
          (cntTotal (firstPlacesOf [[0,1],[1,0],[2,0]] ([2] : List ℕ)) : ℚ) > 1/2)) =
        some (0, 2) := by
      rw [hfp2]
      norm_num [List.find?, cntTotal]
    have hstep : instantRunoff nSeats [[0,1],[1,0],[2,0]] =
        runoffLoop nSeats [[0,1],[1,0],[2,0]] 3 [] := rfl
    rw [hstep, show (3:ℕ) = 2 + 1 from rfl,
      runoffLoop_step_elim nSeats [[0,1],[1,0],[2,0]] 2 [] 2 hf1 hm1,
      show ([] : List ℕ) ++ [2] = [2] from rfl,
      show (2:ℕ) = 1 + 1 from rfl,
      runoffLoop_step_win nSeats [[0,1],[1,0],[2,0]] 1 [2] (0, 2) hf2]
  · rw [hfp2]
    rw [show cntGet [((0:ℕ),2),(1,1)] 0 = 2 from rfl,
      show cntTotal [((0:ℕ),2),(1,1)] = 3 from rfl]
    norm_num

theorem agetD_cons (e : C × β) (l : List (C × β)) (p : C) (d : β) :
    agetD (e :: l) p d = if e.1 = p then e.2 else agetD l p d := by
  by_cases h : e.1 = p <;> simp [agetD, alookup, List.find?_cons, h]

theorem agetD_nil (p : C) (d : β) : agetD ([] : List (C × β)) p d = d := rfl

theorem count_cons' (q y : C) (l : List C) :
    (q :: l).count y = l.count y + (if y = q then 1 else 0) := by
  rw [List.count_cons]
  simp only [beq_iff_eq]
  by_cases h : y = q
  · subst h
    simp
  · rw [if_neg (fun hc => h hc.symm), if_neg h]

theorem count_eq_one_of_nodup (l : List C) (y : C) (hnd : l.Nodup) (hm : y ∈ l) :
    l.count y = 1 := by
  have h1 : l.count y ≤ 1 := List.nodup_iff_count_le_one.mp hnd y
  have h2 : l.count y ≠ 0 := fun h0 => (List.count_eq_zero.mp h0) hm
  omega

theorem bump2_get (cs : List (C × Cnt C)) (p q x y : C) :
    cntGet (agetD (bump2 cs p q) x []) y =
      cntGet (agetD cs x []) y + (if x = p ∧ y = q then 1 else 0) := by
  induction cs with
  | nil =>
    rw [show bump2 ([] : List (C × Cnt C)) p q = [(p, cntIncrement [] q)] from rfl]
    rw [agetD_cons, agetD_nil]
    by_cases hx : p = x
    · rw [if_pos hx, cntIncrement, cntGet_incrementBy]
      by_cases hy : y = q
      · rw [if_pos hy, if_pos ⟨hx.symm, hy⟩]
      · rw [if_neg hy, if_neg (fun hc => hy hc.2)]
    · rw [if_neg hx, if_neg (fun hc => hx (hc.1.symm))]
      omega
  | cons a rest ih =>
    by_cases ha : a.1 = p
    · rw [show bump2 (a :: rest) p q = (a.1, cntIncrement a.2 q) :: rest from by
        simp [bump2, ha]]
      rw [agetD_cons, agetD_cons]
      by_cases hx : a.1 = x
      · rw [if_pos hx, if_pos hx, cntIncrement, cntGet_incrementBy]
        have hxp : x = p := by rw [← hx, ha]
        by_cases hy : y = q
        · rw [if_pos hy, if_pos ⟨hxp, hy⟩]
        · rw [if_neg hy, if_neg (fun hc => hy hc.2)]
      · rw [if_neg hx, if_neg hx]
        have hxp : ¬ (x = p) := fun hc => hx (by rw [ha, hc])
        rw [if_neg (fun hc => hxp hc.1)]
        omega
    · rw [show bump2 (a :: rest) p q = a :: bump2 rest p q from by simp [bump2, ha]]
      rw [agetD_cons, agetD_cons]
      by_cases hx : a.1 = x
      · rw [if_pos hx, if_pos hx]
        have hxp : ¬ (x = p) := fun hc => ha (by rw [hx, hc])
        rw [if_neg (fun hc => hxp hc.1)]
        omega
      · rw [if_neg hx, if_neg hx]
        exact ih

theorem foldBump_get (p : C) (rest : List C) :
    ∀ (cs : List (C × Cnt C)) (x y : C),
      cntGet (agetD (rest.foldl (fun cs q => bump2 cs p q) cs) x []) y =
        cntGet (agetD cs x []) y + (if x = p then rest.count y else 0) := by
  induction rest with
  | nil =>
    intro cs x y
    simp
  | cons q rest ih =>
    intro cs x y
    rw [List.foldl_cons, ih, bump2_get, count_cons']
    by_cases hx : x = p
    · rw [if_pos hx, if_pos hx]
      by_cases hy : y = q
      · rw [if_pos ⟨hx, hy⟩, if_pos hy]
        try omega
      · rw [if_neg (fun hc => hy hc.2), if_neg hy]
        try omega
    · rw [if_neg hx, if_neg hx, if_neg (fun hc => hx hc.1)]
      try omega

theorem processBallot_get :
    ∀ (b : List C) (cs : List (C × Cnt C)) (x y : C),
      cntGet (agetD (processBallot cs b) x []) y =
        cntGet (agetD cs x []) y + ballotPairCount x y b := by
  intro b
  induction b with
  | nil =>
    intro cs x y
    simp [processBallot, ballotPairCount]
  | cons p rest ih =>
    intro cs x y
    rw [show processBallot cs (p :: rest) =
        processBallot (rest.foldl (fun cs q => bump2 cs p q) cs) rest from rfl]
    rw [ih, foldBump_get]
    rw [show ballotPairCount x y (p :: rest) =
        (if p = x then rest.count y else 0) + ballotPairCount x y rest from rfl]
    by_cases hx : x = p
    · rw [if_pos hx, if_pos hx.symm]
      omega
    · rw [if_neg hx, if_neg (fun hc => hx hc.symm)]
      omega

theorem foldl_processBallot_get :
    ∀ (votes : OrderTally C) (cs : List (C × Cnt C)) (x y : C),
      cntGet (agetD (votes.foldl processBallot cs) x []) y =
        cntGet (agetD cs x []) y + prefCount votes x y := by
  intro votes
  induction votes with
  | nil =>
    intro cs x y
    simp [prefCount]
  | cons b rest ih =>
    intro cs x y
    rw [List.foldl_cons, ih, processBallot_get]
    rw [show prefCount (b :: rest) x y =
        ballotPairCount x y b + prefCount rest x y from by simp [prefCount]]
    omega

theorem condorcetCounts_get (votes : OrderTally C) (x y : C) :
    cntGet (agetD (condorcetCounts votes) x []) y = prefCount votes x y := by
  rw [condorcetCounts, foldl_processBallot_get, agetD_nil]
  rw [show cntGet ([] : Cnt C) y = 0 from rfl]
  omega

theorem bpc_zero_fst (x y : C) (b : List C) (h : x ∉ b) :
    ballotPairCount x y b = 0 := by
  induction b with
  | nil => rfl
  | cons p rest ih =>
    have h1 : ¬ p = x := fun hh => h (by rw [hh]; exact List.mem_cons_self _ _)
    simp [ballotPairCount, h1, ih (fun hh => h (List.mem_cons_of_mem _ hh))]

theorem bpc_zero_snd (x y : C) (b : List C) (h : y ∉ b) :
    ballotPairCount x y b = 0 := by
  induction b with
  | nil => rfl
  | cons p rest ih =>
    have h1 : y ∉ rest := fun hh => h (List.mem_cons_of_mem _ hh)
    simp [ballotPairCount, List.count_eq_zero.mpr h1, ih h1]

theorem bpc_self (x : C) (b : List C) (hnd : b.Nodup) :
    ballotPairCount x x b = 0 := by
  induction b with
  | nil => rfl
  | cons p rest ih =>
    rw [List.nodup_cons] at hnd
    rw [show ballotPairCount x x (p :: rest) =
        (if p = x then rest.count x else 0) + ballotPairCount x x rest from rfl]
    rw [ih hnd.2]
    by_cases hp : p = x
    · rw [if_pos hp, List.count_eq_zero.mpr (by rw [← hp]; exact hnd.1)]
    · rw [if_neg hp]

theorem ballotPairCount_total (b : List C) (x y : C) (hxy : x ≠ y)
    (hx : x ∈ b) (hy : y ∈ b) (hnd : b.Nodup) :
    ballotPairCount x y b + ballotPairCount y x b = 1 := by
  induction b with
  | nil => simp at hx
  | cons p rest ih =>
    rw [List.nodup_cons] at hnd
    rw [show ballotPairCount x y (p :: rest) =
        (if p = x then rest.count y else 0) + ballotPairCount x y rest from rfl]
    rw [show ballotPairCount y x (p :: rest) =
        (if p = y then rest.count x else 0) + ballotPairCount y x rest from rfl]
    by_cases hpx : p = x
    · have hxnr : x ∉ rest := by rw [← hpx]; exact hnd.1
      have hyr : y ∈ rest := by
        rcases List.mem_cons.mp hy with h1 | h1
        · exact absurd (h1.trans hpx).symm hxy
        · exact h1
      rw [if_pos hpx, if_neg (fun hc => hxy (hpx.symm.trans hc))]
      rw [count_eq_one_of_nodup rest y hnd.2 hyr]
      rw [bpc_zero_fst x y rest hxnr, bpc_zero_snd y x rest hxnr]
      try omega
    · by_cases hpy : p = y
      · have hynr : y ∉ rest := by rw [← hpy]; exact hnd.1
        have hxr : x ∈ rest := by
          rcases List.mem_cons.mp hx with h1 | h1
          · exact absurd (h1.trans hpy) hxy
          · exact h1
        rw [if_neg hpx, if_pos hpy]
        rw [count_eq_one_of_nodup rest x hnd.2 hxr]
        rw [bpc_zero_snd x y rest hynr, bpc_zero_fst y x rest hynr]
        try omega
      · have hxr : x ∈ rest := by
          rcases List.mem_cons.mp hx with h1 | h1
          · exact absurd h1.symm hpx
          · exact h1
        have hyr : y ∈ rest := by
          rcases List.mem_cons.mp hy with h1 | h1
          · exact absurd h1.symm hpy
          · exact h1
        rw [if_neg hpx, if_neg hpy]
        have h2 := ih hxr hyr hnd.2
        omega

theorem prefCount_total (votes : OrderTally C) (x y : C) (hxy : x ≠ y)
    (h : ∀ b ∈ votes, x ∈ b ∧ y ∈ b ∧ b.Nodup) :
    prefCount votes x y + prefCount votes y x = votes.length := by
  induction votes with
  | nil => simp [prefCount]
  | cons b rest ih =>
    rw [show prefCount (b :: rest) x y =
        ballotPairCount x y b + prefCount rest x y from by simp [prefCount]]
    rw [show prefCount (b :: rest) y x =
        ballotPairCount y x b + prefCount rest y x from by simp [prefCount]]
    rcases h b (List.mem_cons_self _ _) with ⟨hx, hy, hnd⟩
    have h1 := ballotPairCount_total b x y hxy hx hy hnd
    have h2 := ih (fun b' hb' => h b' (List.mem_cons_of_mem _ hb'))
    rw [List.length_cons]
    omega

theorem prefCount_self (votes : OrderTally C) (x : C)
    (hnd : ∀ b ∈ votes, b.Nodup) : prefCount votes x x = 0 := by
  induction votes with
  | nil => rfl
  | cons b rest ih =>
    rw [show prefCount (b :: rest) x x =
        ballotPairCount x x b + prefCount rest x x from by simp [prefCount]]
    rw [bpc_self x b (hnd b (List.mem_cons_self _ _)),
      ih (fun b' hb' => hnd b' (List.mem_cons_of_mem _ hb'))]

theorem exists_entry_of_cntGet_pos (l : Cnt C) (y : C) (h : 0 < cntGet l y) :
    ∃ e ∈ l, e.1 = y ∧ e.2 = cntGet l y := by
  induction l with
  | nil => exact absurd h (by simp [cntGet_nil])
  | cons a rest ih =>
    by_cases ha : a.1 = y
    · exact ⟨a, List.mem_cons_self _ _, ha, by rw [cntGet_cons, if_pos ha]⟩
    · have h' : 0 < cntGet rest y := by rwa [cntGet_cons, if_neg ha] at h
      rcases ih h' with ⟨e, he, h1, h2⟩
      exact ⟨e, List.mem_cons_of_mem _ he, h1, by rw [cntGet_cons, if_neg ha]; exact h2⟩

theorem majority_iff (c n : ℕ) : ((c : ℚ) > (n : ℚ) / 2) ↔ n < 2 * c := by
  rw [gt_iff_lt, div_lt_iff (by norm_num : (0:ℚ) < 2),
    show ((c:ℚ) * 2) = ((2 * c : ℕ) : ℚ) by push_cast; ring]
  exact Nat.cast_lt

/-- Claim C9: for every 3-candidate Order tally of complete rankings in
which every candidate is beaten by some other candidate on a strict
majority of the ballots (a rock-paper-scissors cycle), condorcet with no
contingency raises the Standoff failure, a subtype of AttributionFailure,
and never returns a seat mapping. -/
theorem claim_C9_condorcet_cycle (nSeats : ℕ) (votes : OrderTally (Fin 3))
    (hcomplete : ∀ b ∈ votes, b.Perm [0, 1, 2])
    (hcycle : ∀ x : Fin 3, ∃ y : Fin 3,
      (prefCount votes y x : ℚ) > (votes.length : ℚ) / 2) :
    condorcet nSeats none votes = .error .standoff
    ∧ Err.isAttributionFailure .standoff = true := by
  refine ⟨?_, rfl⟩
  have hball : ∀ b ∈ votes, b.Nodup := fun b hb =>
    ((hcomplete b hb).nodup_iff).mpr (by decide)
  have hmem : ∀ b, b ∈ votes → ∀ x : Fin 3, x ∈ b := fun b hb x =>
    ((hcomplete b hb).mem_iff).mpr ((by decide : ∀ z : Fin 3, z ∈ [0, 1, 2]) x)
  have hcycN : ∀ x : Fin 3, ∃ y, votes.length < 2 * prefCount votes y x := by
    intro x
    rcases hcycle x with ⟨y, hy⟩
    exact ⟨y, (majority_iff _ _).mp hy⟩
  have hself : ∀ x : Fin 3, prefCount votes x x = 0 := fun x =>
    prefCount_self votes x hball
  have htot : ∀ x y : Fin 3, x ≠ y →
      prefCount votes x y + prefCount votes y x = votes.length := by
    intro x y hxy
    exact prefCount_total votes x y hxy (fun b hb => ⟨hmem b hb x, hmem b hb y, hball b hb⟩)
  have h3 : ∀ w : Fin 3, w = 0 ∨ w = 1 ∨ w = 2 := by decide
  have hout : ∀ x : Fin 3, ∃ z, votes.length < 2 * prefCount votes x z := by
    intro x
    by_contra hno
    push_neg at hno
    rcases h3 x with rfl | rfl | rfl
    · rcases hcycN 1 with ⟨y1, hy1⟩
      rcases h3 y1 with rfl | rfl | rfl
      · have := hno 1; omega
      · rw [hself 1] at hy1; omega
      · rcases hcycN 2 with ⟨y2, hy2⟩
        rcases h3 y2 with rfl | rfl | rfl
        · have := hno 2; omega
        · have h12 := htot 1 2 (by decide)
          omega
        · rw [hself 2] at hy2; omega
    · rcases hcycN 0 with ⟨y1, hy1⟩
      rcases h3 y1 with rfl | rfl | rfl
      · rw [hself 0] at hy1; omega
      · have := hno 0; omega
      · rcases hcycN 2 with ⟨y2, hy2⟩
        rcases h3 y2 with rfl | rfl | rfl
        · have h02 := htot 0 2 (by decide)
          omega
        · have := hno 2; omega
        · rw [hself 2] at hy2; omega
    · rcases hcycN 0 with ⟨y1, hy1⟩
      rcases h3 y1 with rfl | rfl | rfl
      · rw [hself 0] at hy1; omega
      · rcases hcycN 1 with ⟨y2, hy2⟩
        rcases h3 y2 with rfl | rfl | rfl
        · have h01 := htot 0 1 (by decide)
          omega
        · rw [hself 1] at hy2; omega
        · have := hno 1; omega
      · have := hno 0; omega
  have hn : 1 ≤ votes.length := by
    rcases hcycN 0 with ⟨y, hy⟩
    by_contra h
    have h0 : votes = [] := List.length_eq_zero.mp (by omega)
    subst h0
    simp [prefCount] at hy
  have hfilter : (keysOf (condorcetCounts votes)).filter
      (fun p => ! ((cntPos (agetD (condorcetCounts votes) p [])).any
        (fun e => decide ((e.2 : ℚ) > (votes.length : ℚ) / 2)))) = [] := by
    rw [List.filter_eq_nil_iff]
    intro p hp
    rcases hout p with ⟨z, hz⟩
    have hpos : 0 < prefCount votes p z := by omega
    have hget : cntGet (agetD (condorcetCounts votes) p []) z = prefCount votes p z :=
      condorcetCounts_get votes p z
    rcases exists_entry_of_cntGet_pos (agetD (condorcetCounts votes) p []) z
      (by rw [hget]; exact hpos) with ⟨e, hmem_e, he1, he2⟩
    have hppos : e ∈ cntPos (agetD (condorcetCounts votes) p []) := by
      refine List.mem_filter.mpr ⟨hmem_e, ?_⟩
      rw [decide_eq_true_eq, he2, hget]
      exact hpos
    have hany : (cntPos (agetD (condorcetCounts votes) p [])).any
        (fun e => decide ((e.2 : ℚ) > (votes.length : ℚ) / 2)) = true := by
      rw [List.any_eq_true]
      refine ⟨e, hppos, ?_⟩
      rw [decide_eq_true_eq, he2, hget]
      exact (majority_iff _ _).mpr hz
    simp [hany]
  simp only [condorcet]
  rw [hfilter]

/-- Witness for claim C9 at the canonical three-ballot
rock-paper-scissors cycle. -/
theorem claim_C9_condorcet_cycle_witness :
    condorcet 5 none ([[0,1,2],[1,2,0],[2,0,1]] : OrderTally (Fin 3)) = .error .standoff :=
  (claim_C9_condorcet_cycle 5 [[0,1,2],[1,2,0],[2,0,1]]
    (by decide)
    (by
      intro x
      rcases (by decide : ∀ w : Fin 3, w = 0 ∨ w = 1 ∨ w = 2) x with rfl | rfl | rfl
      · exact ⟨2, (majority_iff _ _).mpr (by decide)⟩
      · exact ⟨0, (majority_iff _ _).mpr (by decide)⟩
      · exact ⟨1, (majority_iff _ _).mpr (by decide)⟩)).1

/-- Claim C2 is refuted by the code (code bug): on the complete-ranking
tally [[A,B],[A,B],[B,A]] candidate A (=0) is preferred to B (=1) on 2 of
the 3 ballots — a strict majority, so A is the Condorcet winner and the
claim requires {A: nSeats} — yet condorcet with no contingency returns all
the seats to B: the implementation deletes from the winner set every
candidate that WINS some matchup by a majority, inverting the comparison
direction documented in its own doc comment and in the spec. -/
theorem claim_C2_condorcet :
    cntGet (agetD (condorcetCounts [[0,1],[0,1],[1,0]]) 0 []) 1 = 2
    ∧ (2:ℚ) > ((3:ℕ):ℚ) / 2
    ∧ condorcet 1 none [[0,1],[0,1],[1,0]] = .ok [(1,1)] := by
  refine ⟨by decide, by norm_num, ?_⟩
  simp only [condorcet]
  rw [show condorcetCounts [[0,1],[0,1],[1,0]] = [((0:ℕ), [(1,2)]), (1, [(0,1)])] from rfl]
  norm_num [keysOf, List.filter, agetD, alookup, List.find?, cntPos, List.any]

/-- Claim C10 is refuted by the code (code bug): with the Scores tally
{A: [0,3,0], B: [1,1,1]} both medians are the middle grade 1, a tie, and
the claim (and the spec) requires the contingency to be called on the
original tally restricted to the tied candidates — the tally itself here —
but the code passes `counts.get(party)` (the *expanded grade multisets*
[1,1,1] and [0,1,2]) to `Scores.fromEntries` as if they were grade
histograms, so the contingency receives a different tally that also breaks
the constant-ngrades invariant of the Scores type. -/
theorem claim_C10_medianScore :
    (∀ (c : ScoresTally ℕ → Except Err (Cnt ℕ)) (nSeats : ℕ),
        medianScore nSeats (some c) [((0:ℕ),[0,3,0]), (1,[1,1,1])] =
          c [(0,[1,1,1]), (1,[0,1,2])])
    ∧ median [1,1,1] = 1
    ∧ median [0,1,2] = 1
    ∧ ([((0:ℕ),[1,1,1]), (1,[0,1,2])] : ScoresTally ℕ) ≠ [(0,[0,3,0]), (1,[1,1,1])] := by
  refine ⟨?_,
    by norm_num [median, List.insertionSort, List.orderedInsert],
    by norm_num [median, List.insertionSort, List.orderedInsert],
    by decide⟩
  intro c nSeats
  simp only [medianScore]
  rw [show scoresCounts [((0:ℕ),[0,3,0]), (1,[1,1,1])] = [(0,[1,1,1]), (1,[0,1,2])] from rfl]
  norm_num [Option.getD, keysOf, agetD, alookup, List.find?, List.filter, maxQ, median,
    List.insertionSort, List.orderedInsert]

/-- Witness for claim C1: two of the conjuncts applied at concrete tallies. -/
theorem claim_C1_sum_of_seats_witness :
    cntTotal (hamilton 10 [((0:ℕ),41),(1,29),(2,17),(3,13)]) = 10
    ∧ cntTotal [((0:ℕ),7)] = 7 :=
  ⟨(claim_C1_sum_of_seats 10).2.1 [((0:ℕ),41),(1,29),(2,17),(3,13)] (by decide) (by decide),
   (claim_C1_sum_of_seats 7).2.2.1 [((0:ℕ),5),(1,3)] [(0,7)] (by rfl)⟩

/-- Witness for claim C3: with threshold 0 the base attribution is called
on the unmodified tally. -/
theorem claim_C3_addThresholdToSimpleAttribution_witness :
    addThresholdToSimpleAttribution 0 (plurality 1) .fail [((0:ℕ),1)] =
      plurality 1 [((0:ℕ),1)] :=
  (claim_C3_addThresholdToSimpleAttribution (1/2) (plurality 1) .fail [((0:ℕ),1)]
    (by decide) (by norm_num)).2.2 .fail

end Ecclesia
